import Mathlib

/-!
Verification of the change-capture pipeline of `rust-tutor-mcp`.

The development shallowly embeds the pipeline of `src/watcher.rs`,
`src/store.rs` and `src/server.rs`:

* `split_lines` — line tokenization keeping terminators (the convention of
  the external `similar` text-diff library used by `extract_hunks`).
* `diff_ops` — the line-diff core.  The diff engine itself is the external
  `similar` crate, which is not part of this repository's sources; following
  the specification (§4.3, §9 "Diff algorithm coupling") it is modelled as a
  standard minimal LCS line diff producing the same operation alphabet
  (`equal`/`delete`/`insert`/`replace`) with 0-based index ranges, with a
  `delete`-run immediately followed by an `insert`-run merged into a
  `replace` (the library's `Replace` capture hook).
* `group_diff_ops` — the library's unified-diff hunk grouping with a context
  radius of 3 equal lines (the default used by `unified_diff().iter_hunks()`).
* `extract_hunks`, `process_event` — translated from `src/watcher.rs`.
* `TutorStoreState` and its queries — the SQLite table of `src/store.rs`
  modelled as an in-memory list of rows; timestamps are modelled as naturals.
-/

/-- One line of a text, keeping its terminating newline (the tokenization the
`similar` library uses for `TextDiff::from_lines`); the empty text has no
lines. Auxiliary worker carrying the reversed pending characters. -/
def splitLinesAux : List Char → List Char → List String
  | [], [] => []
  | [], acc => [String.mk acc.reverse]
  | '\n' :: rest, acc => String.mk (acc.reverse ++ ['\n']) :: splitLinesAux rest []
  | c :: rest, acc => splitLinesAux rest (c :: acc)

/-- Split a text into its lines, each keeping its terminating newline. -/
def split_lines (s : String) : List String :=
  splitLinesAux s.data []

/-- Diff operations over 0-based token index ranges, the operation alphabet of
the `similar` library (`DiffOp`). -/
inductive DiffOp where
  | equal (oldIndex newIndex len : Nat)
  | delete (oldIndex oldLen newIndex : Nat)
  | insert (oldIndex newIndex newLen : Nat)
  | replace (oldIndex oldLen newIndex newLen : Nat)
deriving DecidableEq, Repr

/-- Start of the operation's range in the old token list (`op.old_range().start`). -/
def DiffOp.oldStart : DiffOp → Nat
  | .equal oi _ _ => oi
  | .delete oi _ _ => oi
  | .insert oi _ _ => oi
  | .replace oi _ _ _ => oi

/-- End of the operation's range in the old token list (`op.old_range().end`). -/
def DiffOp.oldStop : DiffOp → Nat
  | .equal oi _ l => oi + l
  | .delete oi l _ => oi + l
  | .insert oi _ _ => oi
  | .replace oi l _ _ => oi + l

/-- Start of the operation's range in the new token list (`op.new_range().start`). -/
def DiffOp.newStart : DiffOp → Nat
  | .equal _ ni _ => ni
  | .delete _ _ ni => ni
  | .insert _ ni _ => ni
  | .replace _ _ ni _ => ni

/-- End of the operation's range in the new token list (`op.new_range().end`). -/
def DiffOp.newStop : DiffOp → Nat
  | .equal _ ni l => ni + l
  | .delete _ _ ni => ni
  | .insert _ ni m => ni + m
  | .replace _ _ ni m => ni + m

/-- Length of a longest common subsequence of two token lists, with an
explicit recursion budget (each step shortens the combined length, so a
budget of the combined length is always enough); used by the modelled diff
core to pick a minimal edit script. -/
def lcsLenFuel : Nat → List String → List String → Nat
  | 0, _, _ => 0
  | _ + 1, [], _ => 0
  | _ + 1, _ :: _, [] => 0
  | f + 1, a :: as, b :: bs =>
    if a = b then lcsLenFuel f as bs + 1
    else max (lcsLenFuel f as (b :: bs)) (lcsLenFuel f (a :: as) bs)

/-- Length of a longest common subsequence of two token lists. -/
def lcsLen (xs ys : List String) : Nat :=
  lcsLenFuel (xs.length + ys.length) xs ys

/-- Prepend one equal token at `(oi, ni)`, extending an equal run already at
the head (runs of equal hook calls are captured as a single `equal` op). -/
def consEqual (oi ni : Nat) : List DiffOp → List DiffOp
  | .equal _ _ l :: rest => .equal oi ni (l + 1) :: rest
  | rest => .equal oi ni 1 :: rest

/-- Prepend one deleted token at `(oi, ni)`.  A following delete run is
extended; a following insert run forms a `replace` (the `Replace` capture
hook of the diff library merges a delete immediately followed by an insert). -/
def consDelete (oi ni : Nat) : List DiffOp → List DiffOp
  | .delete _ l _ :: rest => .delete oi (l + 1) ni :: rest
  | .replace _ l _ m :: rest => .replace oi (l + 1) ni m :: rest
  | .insert _ _ m :: rest => .replace oi 1 ni m :: rest
  | rest => .delete oi 1 ni :: rest

/-- Prepend one inserted token at `(oi, ni)`, extending an insert run already
at the head.  An insert followed by a delete is not merged. -/
def consInsert (oi ni : Nat) : List DiffOp → List DiffOp
  | .insert _ _ m :: rest => .insert oi ni (m + 1) :: rest
  | rest => .insert oi ni 1 :: rest

/-- Modelled from the spec: the diff core of the external `similar` library
(not part of this repository's sources), abstracted by the spec as a
"standard longest-common-subsequence-class line-diff algorithm"
(§4.3) behind the capability `diff(old, new) -> ordered hunks` (§9).
It produces the ordered, position-coalesced operation list for the token
lists `o` against `n`, with `oi`/`ni` the 0-based offsets of the two lists. -/
def diffRec : Nat → List String → List String → Nat → Nat → List DiffOp
  | _, [], [], _, _ => []
  | _, [], _ :: bs, oi, ni => [.insert oi ni (bs.length + 1)]
  | _, _ :: as, [], oi, ni => [.delete oi (as.length + 1) ni]
  | 0, _ :: _, _ :: _, _, _ => []
  | f + 1, a :: as, b :: bs, oi, ni =>
    if a = b then consEqual oi ni (diffRec f as bs (oi + 1) (ni + 1))
    else if lcsLen (a :: as) bs ≤ lcsLen as (b :: bs) then
      consDelete oi ni (diffRec f as (b :: bs) (oi + 1) ni)
    else consInsert oi ni (diffRec f (a :: as) bs oi (ni + 1))

/-- Operation list of the diff of two token lists (`TextDiff::from_lines`
followed by capturing the diff ops); the recursion budget of the combined
length is always sufficient, as each step consumes at least one token. -/
def diff_ops (o n : List String) : List DiffOp :=
  diffRec (o.length + n.length) o n 0 0

/-- Trim a leading equal run to its last `n` tokens (the context shown before
the first change): `similar`'s `group_diff_ops` first-op adjustment. -/
def trimFirstEqual (n : Nat) : List DiffOp → List DiffOp
  | .equal oi ni l :: rest => .equal (oi + (l - n)) (ni + (l - n)) (l - (l - n)) :: rest
  | ops => ops

/-- Trim a trailing equal run to its first `n` tokens (the context shown after
the last change): `similar`'s `group_diff_ops` last-op adjustment. -/
def trimLastEqual (n : Nat) : List DiffOp → List DiffOp
  | [] => []
  | [.equal oi ni l] => [.equal oi ni (min l n)]
  | op :: rest => op :: trimLastEqual n rest

/-- Worker of `group_diff_ops`: split the operation list into hunk groups at
equal runs longer than `2 * n`, keeping `n` context tokens on each side of a
split; a trailing group that holds no change (empty, or one equal run) is
dropped. -/
def groupFold (n : Nat) : List DiffOp → List DiffOp → List (List DiffOp) → List (List DiffOp)
  | [], pending, rv =>
    match pending with
    | [] => rv
    | [.equal _ _ _] => rv
    | _ => rv ++ [pending]
  | .equal oi ni l :: rest, pending, rv =>
    if pending ≠ [] ∧ n * 2 < l then
      groupFold n rest [.equal (oi + l - n) (ni + l - n) n]
        (rv ++ [pending ++ [.equal oi ni n]])
    else groupFold n rest (pending ++ [.equal oi ni l]) rv
  | op :: rest, pending, rv => groupFold n rest (pending ++ [op]) rv

/-- Group the diff operations into unified-diff hunks with `n` tokens of
context (the `similar` library's `group_diff_ops`, which backs
`unified_diff().iter_hunks()`). -/
def group_diff_ops (n : Nat) (ops : List DiffOp) : List (List DiffOp) :=
  match ops with
  | [] => []
  | _ => groupFold n (trimLastEqual n (trimFirstEqual n ops)) [] []

/-- Tag of a single line-level change (`similar::ChangeTag`). -/
inductive ChangeTag where
  | delete
  | insert
  | equal
deriving DecidableEq, Repr

/-- One line-level change yielded by iterating a hunk (`hunk.iter_changes()`);
`value` is the token, which keeps its terminating newline. -/
structure Change where
  tag : ChangeTag
  value : String
deriving DecidableEq, Repr

/-- Changes yielded by one diff operation, in iteration order: an `equal` run
yields its old tokens tagged equal, a `delete` its old tokens tagged delete,
an `insert` its new tokens tagged insert, and a `replace` its deleted old
tokens followed by its inserted new tokens. -/
def opChanges (oldT newT : List String) : DiffOp → List Change
  | .equal oi _ l => ((oldT.drop oi).take l).map fun v => ⟨.equal, v⟩
  | .delete oi l _ => ((oldT.drop oi).take l).map fun v => ⟨.delete, v⟩
  | .insert _ ni m => ((newT.drop ni).take m).map fun v => ⟨.insert, v⟩
  | .replace oi l ni m =>
    (((oldT.drop oi).take l).map fun v => (⟨.delete, v⟩ : Change)) ++
      ((newT.drop ni).take m).map fun v => ⟨.insert, v⟩

/-- All changes of one hunk group, in `hunk.iter_changes()` order. -/
def hunkChanges (oldT newT : List String) (g : List DiffOp) : List Change :=
  g.flatMap (opChanges oldT newT)

/-- The hunk data assembled by `extract_hunks` in `src/watcher.rs`: 0-based
hunk index, `i64` span fields, and the deleted/inserted lines joined with
a newline separator. -/
structure HunkData where
  idx : Nat
  old_start : Int
  old_count : Int
  new_start : Int
  new_count : Int
  before_lines : String
  after_lines : String
deriving DecidableEq, Repr

/-- Body of the per-hunk loop of `extract_hunks`: span fields from the first
and last operation of the hunk group (`ops.first()` / `ops.last()`,
defaulting to 0), and the delete-tagged and insert-tagged change values
joined with `"\n"`. -/
def hunkOfGroup (oldT newT : List String) (idx : Nat) (g : List DiffOp) : HunkData :=
  let old_start : Int := ((g.head?.map DiffOp.oldStart).getD 0 : Nat)
  let old_stop : Int := ((g.getLast?.map DiffOp.oldStop).getD 0 : Nat)
  let new_start : Int := ((g.head?.map DiffOp.newStart).getD 0 : Nat)
  let new_stop : Int := ((g.getLast?.map DiffOp.newStop).getD 0 : Nat)
  { idx := idx
    old_start := old_start
    old_count := old_stop - old_start
    new_start := new_start
    new_count := new_stop - new_start
    before_lines := String.intercalate "\n"
      (((hunkChanges oldT newT g).filter fun c => c.tag = ChangeTag.delete).map Change.value)
    after_lines := String.intercalate "\n"
      (((hunkChanges oldT newT g).filter fun c => c.tag = ChangeTag.insert).map Change.value) }

/-- `extract_hunks` of `src/watcher.rs`: diff the two texts line-wise, group
the operations into unified-diff hunks (context radius 3, the library
default), and assemble one `HunkData` per hunk, indexed from 0. -/
def extract_hunks (old new : String) : List HunkData :=
  let oldT := split_lines old
  let newT := split_lines new
  (group_diff_ops 3 (diff_ops oldT newT)).enum.map fun p => hunkOfGroup oldT newT p.1 p.2

/-- A row of the `file_changes` table (`FileChangeRecord` in `src/store.rs`);
`changed_at` (a `chrono` UTC timestamp in the source) is modelled as a
natural number, ordered as the timestamps are. -/
structure FileChangeRecord where
  id : Int
  file_path : String
  hunk_idx : Int
  change_id : String
  old_start : Int
  old_count : Int
  new_start : Int
  new_count : Int
  before_lines : String
  after_lines : String
  changed_at : Nat
deriving DecidableEq, Repr

/-- The `file_changes` table of the SQLite store, modelled as the list of its
rows in insertion order together with the next rowid to assign. -/
structure TutorStoreState where
  rows : List FileChangeRecord
  nextId : Int
deriving DecidableEq, Repr

/-- `TutorStore::save_file_change`: insert the record (the stored row receives
the next rowid, the caller-supplied `id` field being ignored by the INSERT)
and return the new state with `last_insert_rowid`. -/
def save_file_change (db : TutorStoreState) (r : FileChangeRecord) : TutorStoreState × Int :=
  ({ rows := db.rows ++ [{ r with id := db.nextId }], nextId := db.nextId + 1 }, db.nextId)

/-- Insert a row into a list sorted by descending `changed_at`. -/
def insertByTimeDesc (r : FileChangeRecord) : List FileChangeRecord → List FileChangeRecord
  | [] => [r]
  | x :: xs => if x.changed_at ≤ r.changed_at then r :: x :: xs else x :: insertByTimeDesc r xs

/-- `ORDER BY changed_at DESC`: sort rows by descending timestamp. -/
def sortByTimeDesc (rs : List FileChangeRecord) : List FileChangeRecord :=
  rs.foldr insertByTimeDesc []

/-- Result set of `TutorStore::get_changes_for_file`: rows of the path, most
recent first, limited (`WHERE file_path = ?1 ORDER BY changed_at DESC
LIMIT ?2`). -/
def q_changes_for_file (db : TutorStoreState) (p : String) (lim : Int) : List FileChangeRecord :=
  (sortByTimeDesc (db.rows.filter fun r => r.file_path = p)).take lim.toNat

/-- Result set of `TutorStore::get_changes_for_change_id`: rows of the group,
ordered by `changed_at DESC` (`WHERE change_id = ?1 ORDER BY changed_at
DESC`). -/
def q_changes_for_change_id (db : TutorStoreState) (cid : String) : List FileChangeRecord :=
  sortByTimeDesc (db.rows.filter fun r => r.change_id = cid)

/-- Modelled from the spec: a "genuine storage-unavailable condition" (§7) of
the underlying SQLite engine, which is not part of this repository's sources;
`avail` says whether the statement can run.  `TutorStore::get_changes_for_file`
propagates such failures as errors and otherwise returns the rows. -/
def get_changes_for_file (avail : Bool) (db : TutorStoreState) (p : String) (lim : Int) :
    Except String (List FileChangeRecord) :=
  if avail then .ok (q_changes_for_file db p lim) else .error "failed to collect get results"

/-- `TutorStore::get_changes_for_change_id` with the same storage-failure
model. -/
def get_changes_for_change_id (avail : Bool) (db : TutorStoreState) (cid : String) :
    Except String (List FileChangeRecord) :=
  if avail then .ok (q_changes_for_change_id db cid) else .error "failed to collect get results"

/-- Modelled from the spec: the effectful environment of one watcher event in
`WatcherState::process_event`.  The file read (`std::fs::read_to_string`),
the freshly minted change identifier (`uuid::Uuid::new_v4`), the wall clock
(`chrono::Utc::now`, one sample per call) and the success of each hunk INSERT
are external effects not decided by this repository's sources; they are
supplied as data: `readResult` the read outcome, `changeId` the minted
identifier, `times i` the timestamp returned by the `i`-th clock call of this
event, and `saveFails i` whether the `i`-th `save_file_change` statement
fails. -/
structure WatcherEnv where
  readResult : Except String String
  changeId : String
  times : Nat → Nat
  saveFails : Nat → Bool

/-- In-memory state owned by the watcher worker: the snapshot cache
(`WatcherState::last_seen`, an association list from path to content) and the
shared store. -/
structure WatcherStateM where
  last_seen : List (String × String)
  db : TutorStoreState
deriving DecidableEq, Repr

/-- Look a path up in the snapshot cache. -/
def lookupSeen (m : List (String × String)) (p : String) : Option String :=
  (m.find? fun q => q.1 = p).map Prod.snd

/-- Replace (or add) the snapshot of a path. -/
def insertSeen (m : List (String × String)) (p c : String) : List (String × String) :=
  match m with
  | [] => [(p, c)]
  | (q, d) :: rest => if q = p then (p, c) :: rest else (q, d) :: insertSeen rest p c

/-- The `FileChangeRecord` built for one hunk inside the persistence loop of
`process_event` (`id` is 0 before insertion; `changed_at` is the clock sample
taken for this record). -/
def mkRecord (path cid : String) (t : Nat) (h : HunkData) : FileChangeRecord :=
  { id := 0
    file_path := path
    hunk_idx := (h.idx : Int)
    change_id := cid
    old_start := h.old_start
    old_count := h.old_count
    new_start := h.new_start
    new_count := h.new_count
    before_lines := h.before_lines
    after_lines := h.after_lines
    changed_at := t }

/-- The persistence loop of `process_event`: for each hunk, build its record
(sampling the clock) and insert it.  A failing insert makes the source
`.expect("failed to save file change")` panic: the loop stops and the panic
message is reported; inserts already committed to the shared store remain. -/
def persistLoop (env : WatcherEnv) (path cid : String) (db : TutorStoreState)
    (hunks : List HunkData) (i : Nat) : TutorStoreState × Option String :=
  match hunks with
  | [] => (db, none)
  | h :: rest =>
    let record := mkRecord path cid (env.times i) h
    if env.saveFails i then (db, some "failed to save file change")
    else persistLoop env path cid (save_file_change db record).1 rest (i + 1)

/-- `WatcherState::process_event` of `src/watcher.rs`: read the file (on read
failure log and return, state untouched); compare against the cached snapshot
(absent snapshot reads as the empty string) and return unchanged when equal;
otherwise extract hunks, mint the change id, persist every hunk, and only
after the whole loop replace the snapshot.  The second component is the panic
message if a hunk insert failed (the thread dies; the snapshot, which is
thread-local, is not advanced). -/
def process_event (env : WatcherEnv) (st : WatcherStateM) (path : String) :
    WatcherStateM × Option String :=
  match env.readResult with
  | .error _ => (st, none)
  | .ok contents =>
    let old := (lookupSeen st.last_seen path).getD ""
    if old = contents then (st, none)
    else
      let hunks := extract_hunks old contents
      match persistLoop env path env.changeId st.db hunks 0 with
      | (db', some m) => ({ st with db := db' }, some m)
      | (db', none) => ({ last_seen := insertSeen st.last_seen path contents, db := db' }, none)

/-- The watcher worker's event loop restricted to one path: events are
processed in order until the thread panics; after a panic no further event is
processed (the spawned thread is dead, while the shared store keeps what was
committed). -/
def run_events (envs : List WatcherEnv) (st : WatcherStateM) (path : String) :
    WatcherStateM × Option String :=
  match envs with
  | [] => (st, none)
  | e :: rest =>
    match process_event e st path with
    | (st', none) => run_events rest st' path
    | (st', some m) => (st', some m)

/-- `join_or_empty` of `src/server.rs`: the fallback message for an empty
result set, otherwise the formatted items joined by a separator line. -/
def join_or_empty (items : List α) (msg : String) (f : α → String) : String :=
  if items.isEmpty then msg
  else String.intercalate "\n\n---\n\n" (items.map f)

/-- `FileChangeRecord::format_changes` of `src/store.rs` (the `chrono`
timestamp renders through its modelled numeric value). -/
def format_changes (r : FileChangeRecord) : String :=
  "**ID " ++ toString r.id ++ "** `" ++ r.file_path ++ "` (" ++ toString r.changed_at ++
    "):\n\n@@ -" ++ toString r.old_start ++ "," ++ toString r.old_count ++ " +" ++
    toString r.new_start ++ "," ++ toString r.new_count ++ "\n            @@\n\nBefore:\n```\n" ++
    r.before_lines ++ "\n```\n\nAfter:\n```\n" ++ r.after_lines ++ "\n```"

/-- `RustTutor::get_file_changes` of `src/server.rs`: query the store with the
requested limit (default 5), mapping a store error to a protocol error and a
result set — possibly empty — to a success text via `join_or_empty`. -/
def get_file_changes (avail : Bool) (db : TutorStoreState) (file_path : String)
    (limit : Option Int) : Except String String :=
  match get_changes_for_file avail db file_path (limit.getD 5) with
  | .error e => .error ("Failed to get file changes: " ++ e)
  | .ok changes => .ok (join_or_empty changes "No file changes found" format_changes)

/-- The sequence of rows the persistence loop of `process_event` commits for
a hunk list, starting at rowid `baseId` with the `i`-th clock sample for the
`i`-th record. -/
def persistedRecords (env : WatcherEnv) (path cid : String) (baseId : Int) :
    List HunkData → Nat → List FileChangeRecord
  | [], _ => []
  | h :: rest, i =>
    { mkRecord path cid (env.times i) h with id := baseId } ::
      persistedRecords env path cid (baseId + 1) rest (i + 1)

/-- The operation list `l` tiles the region from positions `(oi, ni)` to
`(oe, ne)`: each operation starts exactly where the previous one stopped, in
both the old and the new token list. -/
def chainedFromTo : Nat → Nat → Nat → Nat → List DiffOp → Prop
  | oi, ni, oe, ne, [] => oi = oe ∧ ni = ne
  | oi, ni, oe, ne, op :: rest =>
    op.oldStart = oi ∧ op.newStart = ni ∧ chainedFromTo op.oldStop op.newStop oe ne rest

/-- Old-text start of a hunk group: the first operation's `old_range().start`,
defaulting to 0 (as `extract_hunks` computes it). -/
def headOldOf (g : List DiffOp) : Nat :=
  (g.head?.map DiffOp.oldStart).getD 0

/-- New-text start of a hunk group: the first operation's `new_range().start`,
defaulting to 0. -/
def headNewOf (g : List DiffOp) : Nat :=
  (g.head?.map DiffOp.newStart).getD 0

/-- A hunk group is internally chained from its first operation's start to
some end position inside the two token lists of lengths `N` and `M`. -/
def GroupChained (N M : Nat) (g : List DiffOp) : Prop :=
  ∃ c d, c ≤ N ∧ d ≤ M ∧ chainedFromTo (headOldOf g) (headNewOf g) c d g

/-- One hunk group starts strictly before another, in both texts. -/
def groupLt (g1 g2 : List DiffOp) : Prop :=
  headOldOf g1 < headOldOf g2 ∧ headNewOf g1 < headNewOf g2

/-- Well-formed output of the hunk grouping: every group is nonempty and
internally chained inside the token lists, and successive groups start
strictly later in both texts. -/
def GoodGroups (N M : Nat) (gs : List (List DiffOp)) : Prop :=
  (∀ g ∈ gs, g ≠ [] ∧ GroupChained N M g) ∧ List.Chain' groupLt gs

/-- The delete sub-spans `(start, length)` of a hunk group's operations in
the old token list. -/
def delRanges (g : List DiffOp) : List (Nat × Nat) :=
  g.filterMap fun op => match op with
    | .delete oi l _ => some (oi, l)
    | .replace oi l _ _ => some (oi, l)
    | _ => none

/-- The insert sub-spans `(start, length)` of a hunk group's operations in
the new token list. -/
def insRanges (g : List DiffOp) : List (Nat × Nat) :=
  g.filterMap fun op => match op with
    | .insert _ ni m => some (ni, m)
    | .replace _ _ ni m => some (ni, m)
    | _ => none

/-- The tokens of a list lying in the span `(start, length)`. -/
def sliceSpan (ts : List String) (r : Nat × Nat) : List String :=
  (ts.drop r.1).take r.2

/-- Claim C3 counterexample: diffing `"a\nb\nc\n"` against `"a\nx\nc\n"` does
not produce a hunk with `old_start = 2`, `old_count = 1`, `new_start = 2`,
`new_count = 1`, `before_lines = "b"`, `after_lines = "x"`: the library's
hunk ranges are 0-based and include the surrounding context lines, and the
stored lines keep their newline terminators. -/
theorem extract_hunks_replace_cex :
    ¬ ((extract_hunks "a\nb\nc\n" "a\nx\nc\n").map fun h =>
        (h.old_start, h.old_count, h.new_start, h.new_count, h.before_lines, h.after_lines)) =
      [(2, 1, 2, 1, "b", "x")] := by decide

/-- Claim C3 as amended: diffing `"a\nb\nc\n"` against `"a\nx\nc\n"` produces
exactly one hunk with `old_start = 0`, `old_count = 3`, `new_start = 0`,
`new_count = 3`, `before_lines = "b\n"`, `after_lines = "x\n"`: the span
fields describe the whole hunk range (0-based, context lines included), and
the stored lines keep their terminators. -/
theorem extract_hunks_replace_actual :
    extract_hunks "a\nb\nc\n" "a\nx\nc\n" =
      [{ idx := 0, old_start := 0, old_count := 3, new_start := 0, new_count := 3,
         before_lines := "b\n", after_lines := "x\n" }] := by decide

/-- Claim C4 counterexample: diffing `""` against `"hello\n"` does not produce
a hunk with `new_start = 1` and `after_lines = "hello"`: the insert range is
0-based (`new_start = 0`) and the stored line keeps its newline. -/
theorem extract_hunks_insert_cex :
    ¬ ((extract_hunks "" "hello\n").map fun h =>
        (h.old_count, h.new_start, h.new_count, h.before_lines, h.after_lines)) =
      [(0, 1, 1, "", "hello")] := by decide

/-- Claim C4 as amended: diffing `""` against `"hello\n"` produces exactly one
hunk with `old_count = 0`, `new_start = 0`, `new_count = 1`,
`before_lines = ""`, `after_lines = "hello\n"`. -/
theorem extract_hunks_insert_actual :
    extract_hunks "" "hello\n" =
      [{ idx := 0, old_start := 0, old_count := 0, new_start := 0, new_count := 1,
         before_lines := "", after_lines := "hello\n" }] := by decide

/-- Claim C1 counterexample: for old text `"a\nb\nc\n"` and new text
`"a\nx\nc\n"` the single produced hunk has `old_start = 0`, `old_count = 3`
and `before_lines = "b\n"`, while the old text's line span
`[old_start, old_start + old_count)` is all three lines — so `before_lines`
is not that span (neither concatenated nor joined with a separator): the
span counts the unstored context lines. -/
theorem before_lines_span_cex :
    ((extract_hunks "a\nb\nc\n" "a\nx\nc\n").map fun h => (h.old_start, h.old_count)) =
      [(0, 3)] ∧
    ((extract_hunks "a\nb\nc\n" "a\nx\nc\n").map HunkData.before_lines) = ["b\n"] ∧
    String.join (((split_lines "a\nb\nc\n").drop 0).take 3) ≠ "b\n" ∧
    String.intercalate "\n" (((split_lines "a\nb\nc\n").drop 0).take 3) ≠ "b\n" := by
  refine ⟨by decide, by decide, by decide, by decide⟩

theorem insertByTimeDesc_perm (r : FileChangeRecord) (l : List FileChangeRecord) :
    (insertByTimeDesc r l).Perm (r :: l) := by
  induction l with
  | nil => simp [insertByTimeDesc]
  | cons x xs ih =>
    simp only [insertByTimeDesc]
    split
    · exact List.Perm.refl _
    · exact (List.Perm.cons x ih).trans (List.Perm.swap r x xs)

theorem sortByTimeDesc_perm (rs : List FileChangeRecord) :
    (sortByTimeDesc rs).Perm rs := by
  induction rs with
  | nil => simp [sortByTimeDesc]
  | cons x xs ih =>
    simp only [sortByTimeDesc, List.foldr_cons]
    exact (insertByTimeDesc_perm x _).trans (List.Perm.cons x ih)

theorem insertByTimeDesc_sorted (r : FileChangeRecord) (l : List FileChangeRecord)
    (h : List.Pairwise (fun a b => b.changed_at ≤ a.changed_at) l) :
    List.Pairwise (fun a b => b.changed_at ≤ a.changed_at) (insertByTimeDesc r l) := by
  induction l with
  | nil => simp [insertByTimeDesc]
  | cons x xs ih =>
    rw [List.pairwise_cons] at h
    obtain ⟨hx, hxs⟩ := h
    simp only [insertByTimeDesc]
    split
    case isTrue hle =>
      rw [List.pairwise_cons]
      refine ⟨?_, List.pairwise_cons.mpr ⟨hx, hxs⟩⟩
      intro b hb
      rcases List.mem_cons.mp hb with rfl | hb2
      · exact hle
      · exact le_trans (hx b hb2) hle
    case isFalse hgt =>
      rw [List.pairwise_cons]
      refine ⟨?_, ih hxs⟩
      intro b hb
      rcases List.mem_cons.mp ((insertByTimeDesc_perm r xs).mem_iff.mp hb) with rfl | hb2
      · omega
      · exact hx b hb2

theorem sortByTimeDesc_sorted (rs : List FileChangeRecord) :
    List.Pairwise (fun a b => b.changed_at ≤ a.changed_at) (sortByTimeDesc rs) := by
  induction rs with
  | nil => simp [sortByTimeDesc]
  | cons x xs ih => exact insertByTimeDesc_sorted x _ ih

/-- Claim C2 counterexample: for a store holding one change group `"g"` with
hunk 0 recorded at time 10 and hunk 1 at time 11, `get_changes_for_change_id`
returns the rows ordered `[1, 0]` (its SQL orders by `changed_at DESC`), which
is not ascending by `hunk_index`. -/
theorem changes_by_change_id_order_cex :
    ((q_changes_for_change_id
      { rows := [
          { id := 1, file_path := "src/lib.rs", hunk_idx := 0, change_id := "g",
            old_start := 0, old_count := 1, new_start := 0, new_count := 1,
            before_lines := "a\n", after_lines := "b\n", changed_at := 10 },
          { id := 2, file_path := "src/lib.rs", hunk_idx := 1, change_id := "g",
            old_start := 5, old_count := 1, new_start := 5, new_count := 1,
            before_lines := "c\n", after_lines := "d\n", changed_at := 11 }],
        nextId := 3 } "g").map FileChangeRecord.hunk_idx) = [1, 0] ∧
    ¬ List.Pairwise (fun a b : FileChangeRecord => a.hunk_idx ≤ b.hunk_idx)
      (q_changes_for_change_id
      { rows := [
          { id := 1, file_path := "src/lib.rs", hunk_idx := 0, change_id := "g",
            old_start := 0, old_count := 1, new_start := 0, new_count := 1,
            before_lines := "a\n", after_lines := "b\n", changed_at := 10 },
          { id := 2, file_path := "src/lib.rs", hunk_idx := 1, change_id := "g",
            old_start := 5, old_count := 1, new_start := 5, new_count := 1,
            before_lines := "c\n", after_lines := "d\n", changed_at := 11 }],
        nextId := 3 } "g") :=
  ⟨by decide, by decide⟩

/-- Claim C2 as amended: `get_changes_for_change_id` returns the full group —
a permutation of exactly the rows carrying the change id — ordered by
descending `changed_at` (the `ORDER BY changed_at DESC` of the query), not by
ascending `hunk_index`. -/
theorem changes_by_change_id_full_group_time_desc (db : TutorStoreState) (cid : String) :
    (q_changes_for_change_id db cid).Perm (db.rows.filter fun r => r.change_id = cid) ∧
    List.Pairwise (fun a b => b.changed_at ≤ a.changed_at) (q_changes_for_change_id db cid) :=
  ⟨sortByTimeDesc_perm _, sortByTimeDesc_sorted _⟩

/-- Claim C9: when no stored row carries the requested path and the storage
is available, `get_changes_for_file` returns an empty `ok` result — and the
server tool renders the empty-result message — while a storage-unavailable
condition propagates as an error. -/
theorem no_changes_empty_not_error (db : TutorStoreState) (p : String) (lim : Int)
    (limO : Option Int) (h : ∀ r ∈ db.rows, r.file_path ≠ p) :
    get_changes_for_file true db p lim = Except.ok [] ∧
    get_file_changes true db p limO = Except.ok "No file changes found" ∧
    get_changes_for_file false db p lim = Except.error "failed to collect get results" := by
  have hf : db.rows.filter (fun r => r.file_path = p) = [] := by
    rw [List.filter_eq_nil_iff]
    intro a ha
    simpa using h a ha
  refine ⟨?_, ?_, ?_⟩
  · simp [get_changes_for_file, q_changes_for_file, hf, sortByTimeDesc]
  · simp [get_file_changes, get_changes_for_file, q_changes_for_file, hf, sortByTimeDesc,
      join_or_empty]
  · simp [get_changes_for_file]

/-- Witness for `no_changes_empty_not_error` at the empty store and path
`"src/a.rs"`. -/
theorem no_changes_empty_not_error_witness :
    (∀ r ∈ (⟨[], 1⟩ : TutorStoreState).rows, r.file_path ≠ "src/a.rs") ∧
    (get_changes_for_file true ⟨[], 1⟩ "src/a.rs" 5 = Except.ok [] ∧
     get_file_changes true ⟨[], 1⟩ "src/a.rs" none = Except.ok "No file changes found" ∧
     get_changes_for_file false ⟨[], 1⟩ "src/a.rs" 5 =
       Except.error "failed to collect get results") :=
  ⟨by simp, no_changes_empty_not_error ⟨[], 1⟩ "src/a.rs" 5 none (by simp)⟩

/-- Claim C8: when the file read fails, `process_event` logs and returns with
the snapshot cache and the store both untouched. -/
theorem read_failure_leaves_state (env : WatcherEnv) (st : WatcherStateM) (path msg : String)
    (h : env.readResult = Except.error msg) :
    process_event env st path = (st, none) := by
  simp [process_event, h]

/-- Witness for `read_failure_leaves_state` at a concrete failing read. -/
theorem read_failure_leaves_state_witness :
    ((⟨Except.error "io error", "cid", fun i => i, fun _ => false⟩ : WatcherEnv).readResult =
      Except.error "io error") ∧
    process_event ⟨Except.error "io error", "cid", fun i => i, fun _ => false⟩
      ⟨[("src/a.rs", "x\n")], ⟨[], 1⟩⟩ "src/a.rs" = (⟨[("src/a.rs", "x\n")], ⟨[], 1⟩⟩, none) :=
  ⟨rfl, read_failure_leaves_state _ _ _ _ rfl⟩

theorem diffRec_self (L : List String) : ∀ (f oi ni : Nat), L.length ≤ f →
    diffRec f L L oi ni = if L.isEmpty then [] else [.equal oi ni L.length] := by
  induction L with
  | nil => intro f oi ni _; cases f <;> simp [diffRec]
  | cons a as ih =>
    intro f oi ni hf
    cases f with
    | zero => exact absurd hf (by simp)
    | succ g =>
      have has : as.length ≤ g := by simp at hf; omega
      simp only [diffRec, if_pos rfl]
      rw [ih g (oi + 1) (ni + 1) has]
      cases as with
      | nil => simp [consEqual]
      | cons b bs => simp [consEqual]

theorem extract_hunks_self (t : String) : extract_hunks t t = [] := by
  have h := diffRec_self (split_lines t) ((split_lines t).length + (split_lines t).length) 0 0
    (by omega)
  by_cases hL : (split_lines t).isEmpty
  · simp [extract_hunks, diff_ops, h, hL, group_diff_ops]
  · simp [extract_hunks, diff_ops, h, hL, group_diff_ops, trimFirstEqual, trimLastEqual, groupFold]

/-- Claim C5: diffing any text against itself yields zero hunks, and an event
whose read content equals the cached snapshot returns before minting a change
group, leaving the store and the snapshot map unchanged. -/
theorem diff_identical_yields_no_hunks (t : String) (env : WatcherEnv) (st : WatcherStateM)
    (path c : String) (h1 : lookupSeen st.last_seen path = some c)
    (h2 : env.readResult = Except.ok c) :
    extract_hunks t t = [] ∧ process_event env st path = (st, none) := by
  refine ⟨extract_hunks_self t, ?_⟩
  simp [process_event, h2, h1]

/-- Witness for `diff_identical_yields_no_hunks` at a concrete snapshot and a
spurious event carrying the same content. -/
theorem diff_identical_yields_no_hunks_witness :
    lookupSeen ([("src/a.rs", "x\n")] : List (String × String)) "src/a.rs" = some "x\n" ∧
    (⟨Except.ok "x\n", "cid", fun i => i, fun _ => false⟩ : WatcherEnv).readResult =
      Except.ok "x\n" ∧
    (extract_hunks "a\nb\n" "a\nb\n" = [] ∧
     process_event ⟨Except.ok "x\n", "cid", fun i => i, fun _ => false⟩
       ⟨[("src/a.rs", "x\n")], ⟨[], 1⟩⟩ "src/a.rs" = (⟨[("src/a.rs", "x\n")], ⟨[], 1⟩⟩, none)) :=
  ⟨by decide, rfl, diff_identical_yields_no_hunks "a\nb\n" _ _ "src/a.rs" "x\n" (by decide) rfl⟩

theorem persistLoop_ok (env : WatcherEnv) (path cid : String) (hunks : List HunkData) :
    ∀ (db : TutorStoreState) (i : Nat), (∀ j, env.saveFails j = false) →
      persistLoop env path cid db hunks i =
        ({ rows := db.rows ++ persistedRecords env path cid db.nextId hunks i,
           nextId := db.nextId + hunks.length }, none) := by
  induction hunks with
  | nil => intro db i hok; simp [persistLoop, persistedRecords]
  | cons h rest ih =>
    intro db i hok
    simp only [persistLoop, hok i, Bool.false_eq_true, if_false, save_file_change]
    rw [ih _ (i + 1) hok]
    simp [persistedRecords, List.append_assoc]
    omega

theorem persistLoop_fail (env : WatcherEnv) (path cid : String) (hunks : List HunkData) :
    ∀ (db : TutorStoreState) (i k : Nat),
      k < hunks.length → env.saveFails (i + k) = true →
      (∀ j, j < k → env.saveFails (i + j) = false) →
      persistLoop env path cid db hunks i =
        ({ rows := db.rows ++ persistedRecords env path cid db.nextId (hunks.take k) i,
           nextId := db.nextId + k }, some "failed to save file change") := by
  induction hunks with
  | nil => intro db i k hk; simp at hk
  | cons h rest ih =>
    intro db i k hk hfail hbefore
    cases k with
    | zero =>
      simp only [Nat.add_zero] at hfail
      simp [persistLoop, hfail, persistedRecords]
    | succ k2 =>
      have h0 : env.saveFails i = false := by
        have := hbefore 0 (Nat.succ_pos k2)
        simpa using this
      simp only [persistLoop, h0, Bool.false_eq_true, if_false, save_file_change]
      rw [ih _ (i + 1) k2 (by simpa using hk) (by rw [show i + 1 + k2 = i + (k2 + 1) by omega]; exact hfail)
        (fun j hj => by rw [show i + 1 + j = i + (j + 1) by omega]; exact hbefore (j + 1) (by omega))]
      simp [persistedRecords, List.append_assoc]
      omega

theorem persistedRecords_get (env : WatcherEnv) (path cid : String) (hunks : List HunkData) :
    ∀ (baseId : Int) (i k : Nat) (hk : k < hunks.length),
      (persistedRecords env path cid baseId hunks i).get? k =
        some { mkRecord path cid (env.times (i + k)) (hunks.get ⟨k, hk⟩) with
               id := baseId + k } := by
  induction hunks with
  | nil => intro baseId i k hk; simp at hk
  | cons h rest ih =>
    intro baseId i k hk
    cases k with
    | zero => simp [persistedRecords]
    | succ k2 =>
      have hk2 : k2 < rest.length := by simp only [List.length_cons] at hk; omega
      have hrec := ih (baseId + 1) (i + 1) k2 hk2
      simp only [persistedRecords, List.get?_cons_succ]
      rw [hrec]
      refine congrArg some ?_
      simp only [List.get_cons_succ]
      have e1 : i + 1 + k2 = i + (k2 + 1) := by omega
      have e2 : baseId + 1 + (k2 : Int) = baseId + ((k2 : Int) + 1) := by ring
      rw [e1]
      congr 1

/-- Claim C10: when a change group is persisted, the `k`-th stored record of
the group carries the `k`-th clock sample of the event (`changed_at` is
sampled once per record inside the persistence loop, not once per group), so
records of one group need not share an identical `changed_at`. -/
theorem changed_at_sampled_per_record (env : WatcherEnv) (st : WatcherStateM)
    (path contents : String)
    (h1 : env.readResult = Except.ok contents)
    (h2 : (lookupSeen st.last_seen path).getD "" ≠ contents)
    (h3 : ∀ j, env.saveFails j = false) :
    ∀ (k : Nat)
      (hk : k < (extract_hunks ((lookupSeen st.last_seen path).getD "") contents).length),
      ((process_event env st path).1.db.rows).get? (st.db.rows.length + k) =
        some { mkRecord path env.changeId (env.times k)
                 ((extract_hunks ((lookupSeen st.last_seen path).getD "") contents).get ⟨k, hk⟩)
               with id := st.db.nextId + k } := by
  intro k hk
  simp only [process_event, h1]
  rw [if_neg h2]
  rw [persistLoop_ok env path env.changeId _ st.db 0 h3]
  simp only
  rw [List.get?_append_right (by omega)]
  rw [show st.db.rows.length + k - st.db.rows.length = k from by omega]
  rw [persistedRecords_get env path env.changeId _ st.db.nextId 0 k hk]
  simp

/-- Witness for `changed_at_sampled_per_record`: a two-hunk save event whose
records receive the distinct clock samples 100 and 101. -/
theorem changed_at_sampled_per_record_witness :
    (⟨Except.ok "B\nc1\nc2\nc3\nc4\nc5\nc6\nc7\nW\n", "cid", fun i => 100 + i,
        fun _ => false⟩ : WatcherEnv).readResult =
      Except.ok "B\nc1\nc2\nc3\nc4\nc5\nc6\nc7\nW\n" ∧
    (lookupSeen ([("src/lib.rs", "A\nc1\nc2\nc3\nc4\nc5\nc6\nc7\nZ\n")] :
        List (String × String)) "src/lib.rs").getD "" ≠
      "B\nc1\nc2\nc3\nc4\nc5\nc6\nc7\nW\n" ∧
    ((process_event
        ⟨Except.ok "B\nc1\nc2\nc3\nc4\nc5\nc6\nc7\nW\n", "cid", fun i => 100 + i, fun _ => false⟩
        ⟨[("src/lib.rs", "A\nc1\nc2\nc3\nc4\nc5\nc6\nc7\nZ\n")], ⟨[], 1⟩⟩
        "src/lib.rs").1.db.rows).get? 1 =
      some { id := 2, file_path := "src/lib.rs", hunk_idx := 1, change_id := "cid",
             old_start := 5, old_count := 4, new_start := 5, new_count := 4,
             before_lines := "Z\n", after_lines := "W\n", changed_at := 101 } ∧
    ((process_event
        ⟨Except.ok "B\nc1\nc2\nc3\nc4\nc5\nc6\nc7\nW\n", "cid", fun i => 100 + i, fun _ => false⟩
        ⟨[("src/lib.rs", "A\nc1\nc2\nc3\nc4\nc5\nc6\nc7\nZ\n")], ⟨[], 1⟩⟩
        "src/lib.rs").1.db.rows).map FileChangeRecord.changed_at = [100, 101] :=
  ⟨rfl, by decide,
    (changed_at_sampled_per_record _ _ "src/lib.rs" _ rfl (by decide) (fun j => rfl) 1
      (by decide)).trans (by decide),
    by decide⟩

/-- Claim C7 counterexample: with a two-hunk change whose second insert fails,
the watcher does not log-and-continue: `process_event` panics
(`.expect("failed to save file change")`), the thread dies, and a later event
that would have succeeded is never processed — the final store keeps only the
partial group (hunk 0) and the identical hunks are never reproduced, while
the snapshot cache was not advanced. -/
theorem persist_failure_kills_watcher_cex :
    (run_events
      [⟨Except.ok "B\nc1\nc2\nc3\nc4\nc5\nc6\nc7\nW\n", "c1", fun i => 100 + i,
          fun i => decide (i = 1)⟩,
       ⟨Except.ok "B\nc1\nc2\nc3\nc4\nc5\nc6\nc7\nW\n", "c2", fun i => 200 + i,
          fun _ => false⟩]
      ⟨[("src/lib.rs", "A\nc1\nc2\nc3\nc4\nc5\nc6\nc7\nZ\n")], ⟨[], 1⟩⟩ "src/lib.rs").2 =
      some "failed to save file change" ∧
    ((run_events
      [⟨Except.ok "B\nc1\nc2\nc3\nc4\nc5\nc6\nc7\nW\n", "c1", fun i => 100 + i,
          fun i => decide (i = 1)⟩,
       ⟨Except.ok "B\nc1\nc2\nc3\nc4\nc5\nc6\nc7\nW\n", "c2", fun i => 200 + i,
          fun _ => false⟩]
      ⟨[("src/lib.rs", "A\nc1\nc2\nc3\nc4\nc5\nc6\nc7\nZ\n")], ⟨[], 1⟩⟩
      "src/lib.rs").1.db.rows).map FileChangeRecord.hunk_idx = [0] ∧
    (run_events
      [⟨Except.ok "B\nc1\nc2\nc3\nc4\nc5\nc6\nc7\nW\n", "c1", fun i => 100 + i,
          fun i => decide (i = 1)⟩,
       ⟨Except.ok "B\nc1\nc2\nc3\nc4\nc5\nc6\nc7\nW\n", "c2", fun i => 200 + i,
          fun _ => false⟩]
      ⟨[("src/lib.rs", "A\nc1\nc2\nc3\nc4\nc5\nc6\nc7\nZ\n")], ⟨[], 1⟩⟩
      "src/lib.rs").1.last_seen = [("src/lib.rs", "A\nc1\nc2\nc3\nc4\nc5\nc6\nc7\nZ\n")] :=
  ⟨by decide, by decide, by decide⟩

/-- Claim C7 as amended: the snapshot cache is replaced only after every hunk
of the diff has been persisted; if a hunk write fails mid-group the watcher
thread panics — the already-committed prefix of the group remains in the
store, the remaining writes are abandoned, the snapshot is not advanced, and,
the thread being dead, no further event of the watcher is processed (so no
retry or reproduction of the hunks happens). -/
theorem snapshot_after_persist (env : WatcherEnv) (st : WatcherStateM) (path contents : String)
    (h1 : env.readResult = Except.ok contents)
    (h2 : (lookupSeen st.last_seen path).getD "" ≠ contents) :
    ((∀ j, env.saveFails j = false) →
      process_event env st path =
        ({ last_seen := insertSeen st.last_seen path contents,
           db := { rows := st.db.rows ++ persistedRecords env path env.changeId st.db.nextId
                     (extract_hunks ((lookupSeen st.last_seen path).getD "") contents) 0,
                   nextId := st.db.nextId +
                     (extract_hunks ((lookupSeen st.last_seen path).getD "") contents).length } },
         none)) ∧
    (∀ k : Nat,
      k < (extract_hunks ((lookupSeen st.last_seen path).getD "") contents).length →
      env.saveFails k = true → (∀ j, j < k → env.saveFails j = false) →
      process_event env st path =
        ({ last_seen := st.last_seen,
           db := { rows := st.db.rows ++ persistedRecords env path env.changeId st.db.nextId
                     ((extract_hunks ((lookupSeen st.last_seen path).getD "") contents).take k) 0,
                   nextId := st.db.nextId + k } },
         some "failed to save file change")) ∧
    (∀ (envs : List WatcherEnv) (st2 : WatcherStateM) (m : String),
      process_event env st path = (st2, some m) →
      run_events (env :: envs) st path = (st2, some m)) := by
  refine ⟨?_, ?_, ?_⟩
  · intro hok
    simp only [process_event, h1]
    rw [if_neg h2]
    rw [persistLoop_ok env path env.changeId _ st.db 0 hok]
  · intro k hk hfail hbefore
    simp only [process_event, h1]
    rw [if_neg h2]
    rw [persistLoop_fail env path env.changeId _ st.db 0 k hk (by simpa using hfail)
      (fun j hj => by simpa using hbefore j hj)]
  · intro envs st2 m hpe
    simp [run_events, hpe]

/-- Witness for `snapshot_after_persist`: a two-hunk change whose second
insert fails leaves the snapshot in place, keeps the committed first record,
and stops the event loop. -/
theorem snapshot_after_persist_witness :
    (⟨Except.ok "B\nc1\nc2\nc3\nc4\nc5\nc6\nc7\nW\n", "c1", fun i => 100 + i,
        fun i => decide (i = 1)⟩ : WatcherEnv).readResult =
      Except.ok "B\nc1\nc2\nc3\nc4\nc5\nc6\nc7\nW\n" ∧
    (lookupSeen ([("src/lib.rs", "A\nc1\nc2\nc3\nc4\nc5\nc6\nc7\nZ\n")] :
        List (String × String)) "src/lib.rs").getD "" ≠
      "B\nc1\nc2\nc3\nc4\nc5\nc6\nc7\nW\n" ∧
    process_event
      ⟨Except.ok "B\nc1\nc2\nc3\nc4\nc5\nc6\nc7\nW\n", "c1", fun i => 100 + i,
        fun i => decide (i = 1)⟩
      ⟨[("src/lib.rs", "A\nc1\nc2\nc3\nc4\nc5\nc6\nc7\nZ\n")], ⟨[], 1⟩⟩ "src/lib.rs" =
      (⟨[("src/lib.rs", "A\nc1\nc2\nc3\nc4\nc5\nc6\nc7\nZ\n")],
        ⟨[{ id := 1, file_path := "src/lib.rs", hunk_idx := 0, change_id := "c1",
            old_start := 0, old_count := 4, new_start := 0, new_count := 4,
            before_lines := "A\n", after_lines := "B\n", changed_at := 100 }], 2⟩⟩,
       some "failed to save file change") :=
  ⟨rfl, by decide,
    ((snapshot_after_persist _ _ "src/lib.rs" _ rfl (by decide)).2.1 1 (by decide) (by decide)
      (fun j hj => by interval_cases j; decide)).trans (by decide)⟩

theorem DiffOp.oldStart_le_oldStop (op : DiffOp) : op.oldStart ≤ op.oldStop := by
  cases op <;> simp [DiffOp.oldStart, DiffOp.oldStop]

theorem DiffOp.newStart_le_newStop (op : DiffOp) : op.newStart ≤ op.newStop := by
  cases op <;> simp [DiffOp.newStart, DiffOp.newStop]

theorem chainedFromTo_le (l : List DiffOp) :
    ∀ oi ni oe ne, chainedFromTo oi ni oe ne l → oi ≤ oe ∧ ni ≤ ne := by
  induction l with
  | nil => intro oi ni oe ne h; obtain ⟨h1, h2⟩ := h; omega
  | cons op rest ih =>
    intro oi ni oe ne h
    obtain ⟨h1, h2, h3⟩ := h
    have := ih op.oldStop op.newStop oe ne h3
    have h4 := op.oldStart_le_oldStop
    have h5 := op.newStart_le_newStop
    omega

theorem chainedFromTo_mem (l : List DiffOp) :
    ∀ oi ni oe ne, chainedFromTo oi ni oe ne l → ∀ op ∈ l,
      oi ≤ op.oldStart ∧ op.oldStop ≤ oe ∧ ni ≤ op.newStart ∧ op.newStop ≤ ne := by
  induction l with
  | nil => intro oi ni oe ne h op hop; simp at hop
  | cons p rest ih =>
    intro oi ni oe ne h op hop
    obtain ⟨h1, h2, h3⟩ := h
    have hle := chainedFromTo_le rest p.oldStop p.newStop oe ne h3
    rcases List.mem_cons.mp hop with rfl | hop2
    · have h4 := op.oldStart_le_oldStop
      have h5 := op.newStart_le_newStop
      omega
    · have := ih p.oldStop p.newStop oe ne h3 op hop2
      have h4 := p.oldStart_le_oldStop
      have h5 := p.newStart_le_newStop
      omega

theorem chainedFromTo_append (l1 : List DiffOp) :
    ∀ (l2 : List DiffOp) (oi ni om nm oe ne : Nat),
      chainedFromTo oi ni om nm l1 → chainedFromTo om nm oe ne l2 →
      chainedFromTo oi ni oe ne (l1 ++ l2) := by
  induction l1 with
  | nil =>
    intro l2 oi ni om nm oe ne h1 h2
    obtain ⟨e1, e2⟩ := h1
    subst e1; subst e2
    simpa using h2
  | cons op rest ih =>
    intro l2 oi ni om nm oe ne h1 h2
    obtain ⟨e1, e2, h3⟩ := h1
    exact ⟨e1, e2, ih l2 _ _ om nm oe ne h3 h2⟩

theorem chainedFromTo_snoc (l : List DiffOp) (op : DiffOp) (oi ni om nm : Nat)
    (h : chainedFromTo oi ni om nm l) (h1 : op.oldStart = om) (h2 : op.newStart = nm) :
    chainedFromTo oi ni op.oldStop op.newStop (l ++ [op]) :=
  chainedFromTo_append l [op] oi ni om nm op.oldStop op.newStop h
    ⟨h1, h2, rfl, rfl⟩

theorem chainedFromTo_getLast (l : List DiffOp) :
    ∀ oi ni oe ne, chainedFromTo oi ni oe ne l → l ≠ [] →
      (l.getLast?.map DiffOp.oldStop).getD 0 = oe ∧
      (l.getLast?.map DiffOp.newStop).getD 0 = ne := by
  induction l with
  | nil => intro _ _ _ _ _ hne; exact absurd rfl hne
  | cons op rest ih =>
    intro oi ni oe ne h _
    obtain ⟨h1, h2, h3⟩ := h
    cases rest with
    | nil =>
      obtain ⟨e1, e2⟩ := h3
      simp [e1, e2]
    | cons q qs =>
      have := ih op.oldStop op.newStop oe ne h3 (by simp)
      simpa [List.getLast?_cons_cons] using this

theorem headOldOf_append (g : List DiffOp) (op : DiffOp) (h : g ≠ []) :
    headOldOf (g ++ [op]) = headOldOf g := by
  cases g with
  | nil => exact absurd rfl h
  | cons p ps => rfl

theorem headNewOf_append (g : List DiffOp) (op : DiffOp) (h : g ≠ []) :
    headNewOf (g ++ [op]) = headNewOf g := by
  cases g with
  | nil => exact absurd rfl h
  | cons p ps => rfl

theorem consEqual_chain (oi ni oe ne : Nat) (rest : List DiffOp)
    (h : chainedFromTo (oi + 1) (ni + 1) oe ne rest) :
    chainedFromTo oi ni oe ne (consEqual oi ni rest) := by
  cases rest with
  | nil =>
    obtain ⟨e1, e2⟩ := h
    exact ⟨rfl, rfl, e1, e2⟩
  | cons op rs =>
    obtain ⟨e1, e2, h3⟩ := h
    cases op with
    | equal a b l =>
      have ha : a = oi + 1 := e1
      have hb : b = ni + 1 := e2
      refine ⟨rfl, rfl, ?_⟩
      simp only [DiffOp.oldStop, DiffOp.newStop] at h3 ⊢
      rw [show oi + (l + 1) = a + l from by omega, show ni + (l + 1) = b + l from by omega]
      exact h3
    | delete a l b => exact ⟨rfl, rfl, e1, e2, h3⟩
    | insert a b m => exact ⟨rfl, rfl, e1, e2, h3⟩
    | replace a l b m => exact ⟨rfl, rfl, e1, e2, h3⟩

theorem consDelete_chain (oi ni oe ne : Nat) (rest : List DiffOp)
    (h : chainedFromTo (oi + 1) ni oe ne rest) :
    chainedFromTo oi ni oe ne (consDelete oi ni rest) := by
  cases rest with
  | nil =>
    obtain ⟨e1, e2⟩ := h
    exact ⟨rfl, rfl, e1, e2⟩
  | cons op rs =>
    obtain ⟨e1, e2, h3⟩ := h
    cases op with
    | equal a b l => exact ⟨rfl, rfl, e1, e2, h3⟩
    | delete a l b =>
      have ha : a = oi + 1 := e1
      have hb : b = ni := e2
      refine ⟨rfl, rfl, ?_⟩
      simp only [DiffOp.oldStop, DiffOp.newStop] at h3 ⊢
      rw [show oi + (l + 1) = a + l from by omega, show ni = b from hb.symm]
      exact h3
    | insert a b m =>
      have ha : a = oi + 1 := e1
      have hb : b = ni := e2
      refine ⟨rfl, rfl, ?_⟩
      simp only [DiffOp.oldStop, DiffOp.newStop] at h3 ⊢
      rw [show oi + 1 = a from ha.symm, show ni + m = b + m from by omega]
      exact h3
    | replace a l b m =>
      have ha : a = oi + 1 := e1
      have hb : b = ni := e2
      refine ⟨rfl, rfl, ?_⟩
      simp only [DiffOp.oldStop, DiffOp.newStop] at h3 ⊢
      rw [show oi + (l + 1) = a + l from by omega, show ni + m = b + m from by omega]
      exact h3

theorem consInsert_chain (oi ni oe ne : Nat) (rest : List DiffOp)
    (h : chainedFromTo oi (ni + 1) oe ne rest) :
    chainedFromTo oi ni oe ne (consInsert oi ni rest) := by
  cases rest with
  | nil =>
    obtain ⟨e1, e2⟩ := h
    exact ⟨rfl, rfl, e1, e2⟩
  | cons op rs =>
    obtain ⟨e1, e2, h3⟩ := h
    cases op with
    | equal a b l => exact ⟨rfl, rfl, e1, e2, h3⟩
    | delete a l b => exact ⟨rfl, rfl, e1, e2, h3⟩
    | insert a b m =>
      have ha : a = oi := e1
      have hb : b = ni + 1 := e2
      refine ⟨rfl, rfl, ?_⟩
      simp only [DiffOp.oldStop, DiffOp.newStop] at h3 ⊢
      rw [show oi = a from ha.symm, show ni + (m + 1) = b + m from by omega]
      exact h3
    | replace a l b m => exact ⟨rfl, rfl, e1, e2, h3⟩

theorem diffRec_chain : ∀ (f : Nat) (o n : List String) (oi ni : Nat),
    o.length + n.length ≤ f →
    chainedFromTo oi ni (oi + o.length) (ni + n.length) (diffRec f o n oi ni) := by
  intro f
  induction f with
  | zero =>
    intro o n oi ni hf
    cases o with
    | nil =>
      cases n with
      | nil => exact ⟨rfl, rfl⟩
      | cons b bs => simp at hf
    | cons a as => simp at hf
  | succ g ih =>
    intro o n oi ni hf
    cases o with
    | nil =>
      cases n with
      | nil => exact ⟨rfl, rfl⟩
      | cons b bs => exact ⟨rfl, rfl, rfl, rfl⟩
    | cons a as =>
      cases n with
      | nil => exact ⟨rfl, rfl, rfl, rfl⟩
      | cons b bs =>
        simp only [diffRec]
        by_cases hab : a = b
        · rw [if_pos hab]
          have hrec := ih as bs (oi + 1) (ni + 1)
            (by simp only [List.length_cons] at hf; omega)
          have h2 := consEqual_chain oi ni _ _ _ hrec
          rw [show oi + (a :: as).length = oi + 1 + as.length from by simp; omega,
            show ni + (b :: bs).length = ni + 1 + bs.length from by simp; omega]
          exact h2
        · rw [if_neg hab]
          by_cases hlc : lcsLen (a :: as) bs ≤ lcsLen as (b :: bs)
          · rw [if_pos hlc]
            have hrec := ih as (b :: bs) (oi + 1) ni
              (by simp only [List.length_cons] at hf ⊢; omega)
            have h2 := consDelete_chain oi ni _ _ _ hrec
            rw [show oi + (a :: as).length = oi + 1 + as.length from by simp; omega]
            exact h2
          · rw [if_neg hlc]
            have hrec := ih (a :: as) bs oi (ni + 1)
              (by simp only [List.length_cons] at hf ⊢; omega)
            have h2 := consInsert_chain oi ni _ _ _ hrec
            rw [show ni + (b :: bs).length = ni + 1 + bs.length from by simp; omega]
            exact h2

theorem trimFirstEqual_chain (n : Nat) (ops : List DiffOp) (oi ni oe ne : Nat)
    (h : chainedFromTo oi ni oe ne ops) :
    ∃ a b, chainedFromTo a b oe ne (trimFirstEqual n ops) := by
  cases ops with
  | nil => exact ⟨oi, ni, h⟩
  | cons op rest =>
    obtain ⟨e1, e2, h3⟩ := h
    cases op with
    | equal a2 b2 l =>
      refine ⟨a2 + (l - n), b2 + (l - n), rfl, rfl, ?_⟩
      simp only [DiffOp.oldStop, DiffOp.newStop] at h3 ⊢
      rw [show a2 + (l - n) + (l - (l - n)) = a2 + l from by omega,
        show b2 + (l - n) + (l - (l - n)) = b2 + l from by omega]
      exact h3
    | delete a2 l b2 => exact ⟨oi, ni, e1, e2, h3⟩
    | insert a2 b2 m => exact ⟨oi, ni, e1, e2, h3⟩
    | replace a2 l b2 m => exact ⟨oi, ni, e1, e2, h3⟩

theorem trimLastEqual_chain (n : Nat) (ops : List DiffOp) :
    ∀ oi ni oe ne, chainedFromTo oi ni oe ne ops →
      ∃ oe2 ne2, oe2 ≤ oe ∧ ne2 ≤ ne ∧ chainedFromTo oi ni oe2 ne2 (trimLastEqual n ops) := by
  induction ops with
  | nil => intro oi ni oe ne h; exact ⟨oe, ne, le_refl _, le_refl _, h⟩
  | cons op rest ih =>
    intro oi ni oe ne h
    obtain ⟨e1, e2, h3⟩ := h
    cases rest with
    | nil =>
      obtain ⟨f1, f2⟩ := h3
      cases op with
      | equal a b l =>
        simp only [DiffOp.oldStop, DiffOp.newStop] at f1 f2
        refine ⟨a + min l n, b + min l n, by omega, by omega, e1, e2, ?_, ?_⟩
        · simp [DiffOp.oldStop]
        · simp [DiffOp.newStop]
      | delete a l b => exact ⟨oe, ne, le_refl _, le_refl _, e1, e2, f1, f2⟩
      | insert a b m => exact ⟨oe, ne, le_refl _, le_refl _, e1, e2, f1, f2⟩
      | replace a l b m => exact ⟨oe, ne, le_refl _, le_refl _, e1, e2, f1, f2⟩
    | cons q qs =>
      obtain ⟨oe2, ne2, hle1, hle2, hch⟩ := ih _ _ oe ne h3
      cases op with
      | equal a b l => exact ⟨oe2, ne2, hle1, hle2, e1, e2, hch⟩
      | delete a l b => exact ⟨oe2, ne2, hle1, hle2, e1, e2, hch⟩
      | insert a b m => exact ⟨oe2, ne2, hle1, hle2, e1, e2, hch⟩
      | replace a l b m => exact ⟨oe2, ne2, hle1, hle2, e1, e2, hch⟩

theorem GoodGroups_mono (N M N2 M2 : Nat) (gs : List (List DiffOp))
    (h1 : N ≤ N2) (h2 : M ≤ M2) (h : GoodGroups N M gs) : GoodGroups N2 M2 gs := by
  obtain ⟨hmem, hchain⟩ := h
  refine ⟨?_, hchain⟩
  intro g hg
  obtain ⟨hne, c, d, hc, hd, hch⟩ := hmem g hg
  exact ⟨hne, c, d, by omega, by omega, hch⟩

theorem groupFold_push (co cn : Nat) (op : DiffOp) (pending : List DiffOp)
    (rv : List (List DiffOp))
    (e1 : op.oldStart = co) (e2 : op.newStart = cn)
    (H2 : pending = [] → rv = [])
    (H3 : pending ≠ [] → chainedFromTo (headOldOf pending) (headNewOf pending) co cn pending)
    (H5 : ∀ g, rv.getLast? = some g → groupLt g pending) :
    (pending ++ [op] = [] → rv = []) ∧
    (pending ++ [op] ≠ [] → chainedFromTo (headOldOf (pending ++ [op]))
      (headNewOf (pending ++ [op])) op.oldStop op.newStop (pending ++ [op])) ∧
    (∀ g, rv.getLast? = some g → groupLt g (pending ++ [op])) := by
  refine ⟨fun he => absurd he (by simp), fun _ => ?_, fun g hg => ?_⟩
  · by_cases hp : pending = []
    · subst hp
      exact ⟨rfl, rfl, rfl, rfl⟩
    · rw [headOldOf_append _ _ hp, headNewOf_append _ _ hp]
      exact chainedFromTo_snoc pending op _ _ co cn (H3 hp) e1 e2
  · by_cases hp : pending = []
    · rw [H2 hp] at hg; simp at hg
    · have hlt := H5 g hg
      exact ⟨by rw [headOldOf_append _ _ hp]; exact hlt.1,
        by rw [headNewOf_append _ _ hp]; exact hlt.2⟩

theorem GoodGroups_push (N M co cn : Nat) (grp : List DiffOp) (rv : List (List DiffOp))
    (hp : grp ≠ [])
    (hch : chainedFromTo (headOldOf grp) (headNewOf grp) co cn grp)
    (hcoN : co ≤ N) (hcnM : cn ≤ M)
    (H4 : GoodGroups N M rv)
    (H5 : ∀ g, rv.getLast? = some g → groupLt g grp) :
    GoodGroups N M (rv ++ [grp]) := by
  obtain ⟨hmem, hchain⟩ := H4
  constructor
  · intro g hg
    rcases List.mem_append.mp hg with hg2 | hg2
    · exact hmem g hg2
    · rw [List.mem_singleton] at hg2
      subst hg2
      exact ⟨hp, co, cn, hcoN, hcnM, hch⟩
  · rw [List.chain'_append]
    refine ⟨hchain, List.chain'_singleton _, ?_⟩
    intro x hx y hy
    simp only [List.head?_cons, Option.mem_def, Option.some.injEq] at hy
    subst hy
    exact H5 x (by simpa using hx)

theorem groupFold_good (n N M : Nat) :
    ∀ (rest pending : List DiffOp) (rv : List (List DiffOp)) (co cn : Nat),
      chainedFromTo co cn N M rest →
      (pending = [] → rv = []) →
      (pending ≠ [] → chainedFromTo (headOldOf pending) (headNewOf pending) co cn pending) →
      GoodGroups N M rv →
      (∀ g, rv.getLast? = some g → groupLt g pending) →
      GoodGroups N M (groupFold n rest pending rv) := by
  intro rest
  induction rest with
  | nil =>
    intro pending rv co cn H1 H2 H3 H4 H5
    obtain ⟨hco, hcn⟩ := H1
    have hpush : pending ≠ [] → GoodGroups N M (rv ++ [pending]) := fun hp =>
      GoodGroups_push N M co cn pending rv hp (H3 hp) (by omega) (by omega) H4 H5
    cases pending with
    | nil => simpa [groupFold] using H4
    | cons p ps =>
      cases ps with
      | nil =>
        cases p with
        | equal a b l => simpa [groupFold] using H4
        | delete a l b => simpa [groupFold] using hpush (by simp)
        | insert a b m => simpa [groupFold] using hpush (by simp)
        | replace a l b m => simpa [groupFold] using hpush (by simp)
      | cons q qs => simpa [groupFold] using hpush (by simp)
  | cons op rest2 ih =>
    intro pending rv co cn H1 H2 H3 H4 H5
    obtain ⟨e1, e2, h3⟩ := H1
    cases op with
    | equal a b l =>
      have ha : a = co := e1
      have hb : b = cn := e2
      simp only [DiffOp.oldStop, DiffOp.newStop] at h3
      simp only [groupFold]
      by_cases hc : pending ≠ [] ∧ n * 2 < l
      · rw [if_pos hc]
        obtain ⟨hp, hl⟩ := hc
        have hbound := chainedFromTo_le rest2 (a + l) (b + l) N M h3
        have hch_p := H3 hp
        have hple := chainedFromTo_le pending _ _ co cn hch_p
        have hgrp : chainedFromTo (headOldOf (pending ++ [DiffOp.equal a b n]))
            (headNewOf (pending ++ [DiffOp.equal a b n])) (a + n) (b + n)
            (pending ++ [DiffOp.equal a b n]) := by
          rw [headOldOf_append _ _ hp, headNewOf_append _ _ hp]
          have hsn := chainedFromTo_snoc pending (DiffOp.equal a b n) _ _ co cn hch_p
            (by simp [DiffOp.oldStart]; omega) (by simp [DiffOp.newStart]; omega)
          simpa [DiffOp.oldStop, DiffOp.newStop] using hsn
        apply ih [DiffOp.equal (a + l - n) (b + l - n) n]
          (rv ++ [pending ++ [DiffOp.equal a b n]]) (a + l) (b + l) h3
          (fun he => absurd he (by simp))
          (fun _ => ⟨rfl, rfl, by simp [DiffOp.oldStop]; omega, by simp [DiffOp.newStop]; omega⟩)
          (GoodGroups_push N M (a + n) (b + n) _ rv (by simp) hgrp (by omega) (by omega) H4
            (fun g hg => by
              have hlt := H5 g hg
              exact ⟨by rw [headOldOf_append _ _ hp]; exact hlt.1,
                by rw [headNewOf_append _ _ hp]; exact hlt.2⟩))
          (fun g hg => by
            rw [List.getLast?_concat] at hg
            obtain rfl : g = pending ++ [DiffOp.equal a b n] := by
              simpa using hg.symm
            constructor
            · rw [headOldOf_append _ _ hp,
                show headOldOf [DiffOp.equal (a + l - n) (b + l - n) n] = a + l - n from rfl]
              have h6 := hple.1
              omega
            · rw [headNewOf_append _ _ hp,
                show headNewOf [DiffOp.equal (a + l - n) (b + l - n) n] = b + l - n from rfl]
              have h6 := hple.2
              omega)
      · rw [if_neg hc]
        obtain ⟨P1, P2, P3⟩ := groupFold_push co cn (DiffOp.equal a b l) pending rv e1 e2 H2 H3 H5
        exact ih (pending ++ [DiffOp.equal a b l]) rv (a + l) (b + l) h3 P1
          (by simpa [DiffOp.oldStop, DiffOp.newStop] using P2) H4 P3
    | delete a l b =>
      simp only [groupFold]
      obtain ⟨P1, P2, P3⟩ := groupFold_push co cn (DiffOp.delete a l b) pending rv e1 e2 H2 H3 H5
      exact ih (pending ++ [DiffOp.delete a l b]) rv _ _ h3 P1 P2 H4 P3
    | insert a b m =>
      simp only [groupFold]
      obtain ⟨P1, P2, P3⟩ := groupFold_push co cn (DiffOp.insert a b m) pending rv e1 e2 H2 H3 H5
      exact ih (pending ++ [DiffOp.insert a b m]) rv _ _ h3 P1 P2 H4 P3
    | replace a l b m =>
      simp only [groupFold]
      obtain ⟨P1, P2, P3⟩ := groupFold_push co cn (DiffOp.replace a l b m) pending rv e1 e2 H2 H3 H5
      exact ih (pending ++ [DiffOp.replace a l b m]) rv _ _ h3 P1 P2 H4 P3

theorem group_diff_ops_good (oldT newT : List String) :
    GoodGroups oldT.length newT.length (group_diff_ops 3 (diff_ops oldT newT)) := by
  have hch : chainedFromTo 0 0 oldT.length newT.length (diff_ops oldT newT) := by
    have hd := diffRec_chain (oldT.length + newT.length) oldT newT 0 0 (le_refl _)
    simpa using hd
  cases hops : diff_ops oldT newT with
  | nil => exact ⟨by simp [group_diff_ops], by simp [group_diff_ops]⟩
  | cons op ops2 =>
    rw [hops] at hch
    obtain ⟨a, b, hch2⟩ := trimFirstEqual_chain 3 (op :: ops2) 0 0 _ _ hch
    obtain ⟨oe2, ne2, hle1, hle2, hch3⟩ :=
      trimLastEqual_chain 3 (trimFirstEqual 3 (op :: ops2)) a b _ _ hch2
    have hg := groupFold_good 3 oe2 ne2 (trimLastEqual 3 (trimFirstEqual 3 (op :: ops2)))
      [] [] a b hch3 (fun _ => rfl) (fun h => absurd rfl h) ⟨by simp, List.chain'_nil⟩
      (fun g hg => by simp at hg)
    have hm := GoodGroups_mono oe2 ne2 oldT.length newT.length _ hle1 hle2 hg
    simpa [group_diff_ops] using hm

theorem hunkOfGroup_idx (oldT newT : List String) (i : Nat) (g : List DiffOp) :
    (hunkOfGroup oldT newT i g).idx = i := rfl

theorem hunkOfGroup_old_start (oldT newT : List String) (i : Nat) (g : List DiffOp) :
    (hunkOfGroup oldT newT i g).old_start = ((headOldOf g : Nat) : Int) := rfl

theorem hunkOfGroup_new_start (oldT newT : List String) (i : Nat) (g : List DiffOp) :
    (hunkOfGroup oldT newT i g).new_start = ((headNewOf g : Nat) : Int) := rfl

/-- Claim C6: for every pair of texts, the hunk indices produced by one diff
computation are exactly `0..n-1` in order, and both `old_start` and
`new_start` are strictly increasing across successive hunks (hunks never
overlap or reorder). -/
theorem hunk_indices_and_starts_ordered (old new : String) :
    ((extract_hunks old new).map HunkData.idx =
      List.range (extract_hunks old new).length) ∧
    List.Chain' (fun h1 h2 => h1.old_start < h2.old_start ∧ h1.new_start < h2.new_start)
      (extract_hunks old new) := by
  constructor
  · simp only [extract_hunks]
    rw [List.map_map, List.length_map]
    have hco : (HunkData.idx ∘ fun p : Nat × List DiffOp =>
        hunkOfGroup (split_lines old) (split_lines new) p.1 p.2) = Prod.fst := by
      funext p; rfl
    rw [hco, List.enum_map_fst, List.enum_length]
  · obtain ⟨hmem, hchain⟩ := group_diff_ops_good (split_lines old) (split_lines new)
    simp only [extract_hunks]
    rw [List.chain'_map]
    have h2 : List.Chain' (fun p q : Nat × List DiffOp => groupLt p.2 q.2)
        (group_diff_ops 3 (diff_ops (split_lines old) (split_lines new))).enum := by
      rw [← List.enum_map_snd (group_diff_ops 3 (diff_ops (split_lines old) (split_lines new)))]
        at hchain
      exact (List.chain'_map Prod.snd).mp hchain
    refine h2.imp ?_
    intro p q hpq
    rw [hunkOfGroup_old_start, hunkOfGroup_old_start, hunkOfGroup_new_start,
      hunkOfGroup_new_start]
    exact ⟨by exact_mod_cast hpq.1, by exact_mod_cast hpq.2⟩

theorem enumFrom_get? (l : List α) :
    ∀ (s i : Nat), (List.enumFrom s l).get? i = (l.get? i).map fun a => (s + i, a) := by
  induction l with
  | nil => intro s i; simp
  | cons a as ih =>
    intro s i
    cases i with
    | zero => simp
    | succ j =>
      simp only [List.enumFrom, List.get?_cons_succ]
      rw [ih (s + 1) j]
      cases as.get? j <;> simp
      omega

theorem mem_map_mk_tag (t : ChangeTag) (ts : List String) :
    ∀ c ∈ ts.map fun v => (⟨t, v⟩ : Change), c.tag = t := by
  intro c hc
  obtain ⟨v, hv, rfl⟩ := List.mem_map.mp hc
  rfl

theorem filter_map_same_tag (t : ChangeTag) (ts : List String) :
    (List.map Change.value (List.filter (fun c => c.tag = t)
      (ts.map fun v => (⟨t, v⟩ : Change)))) = ts := by
  rw [List.filter_eq_self.mpr]
  · rw [List.map_map]
    have hid : (Change.value ∘ fun v => (⟨t, v⟩ : Change)) = id := by funext v; rfl
    rw [hid, List.map_id]
  · intro c hc
    simp [mem_map_mk_tag t ts c hc]

theorem filter_map_other_tag (t u : ChangeTag) (ts : List String) (htu : t ≠ u) :
    (List.filter (fun c => c.tag = u) (ts.map fun v => (⟨t, v⟩ : Change))) = [] := by
  rw [List.filter_eq_nil_iff]
  intro c hc
  rw [mem_map_mk_tag t ts c hc]
  simpa using htu

theorem opChanges_del_values (oldT newT : List String) (op : DiffOp) :
    (((opChanges oldT newT op).filter fun c => c.tag = ChangeTag.delete).map Change.value) =
      (match op with
       | .delete a2 l _ => List.take l (List.drop a2 oldT)
       | .replace a2 l _ _ => List.take l (List.drop a2 oldT)
       | _ => []) := by
  cases op with
  | equal a b l =>
    simp only [opChanges]
    rw [filter_map_other_tag ChangeTag.equal ChangeTag.delete _ (by decide)]
    rfl
  | insert a b m =>
    simp only [opChanges]
    rw [filter_map_other_tag ChangeTag.insert ChangeTag.delete _ (by decide)]
    rfl
  | delete a l b =>
    simp only [opChanges]
    rw [filter_map_same_tag ChangeTag.delete ((oldT.drop a).take l)]
  | replace a l b m =>
    simp only [opChanges, List.filter_append, List.map_append]
    rw [filter_map_same_tag ChangeTag.delete ((oldT.drop a).take l)]
    rw [filter_map_other_tag ChangeTag.insert ChangeTag.delete _ (by decide)]
    simp

theorem opChanges_ins_values (oldT newT : List String) (op : DiffOp) :
    (((opChanges oldT newT op).filter fun c => c.tag = ChangeTag.insert).map Change.value) =
      (match op with
       | .insert _ b2 m => List.take m (List.drop b2 newT)
       | .replace _ _ b2 m => List.take m (List.drop b2 newT)
       | _ => []) := by
  cases op with
  | equal a b l =>
    simp only [opChanges]
    rw [filter_map_other_tag ChangeTag.equal ChangeTag.insert _ (by decide)]
    rfl
  | delete a l b =>
    simp only [opChanges]
    rw [filter_map_other_tag ChangeTag.delete ChangeTag.insert _ (by decide)]
    rfl
  | insert a b m =>
    simp only [opChanges]
    rw [filter_map_same_tag ChangeTag.insert ((newT.drop b).take m)]
  | replace a l b m =>
    simp only [opChanges, List.filter_append, List.map_append]
    rw [filter_map_same_tag ChangeTag.insert ((newT.drop b).take m)]
    rw [filter_map_other_tag ChangeTag.delete ChangeTag.insert _ (by decide)]
    simp

theorem deletes_values (oldT newT : List String) (g : List DiffOp) :
    (((hunkChanges oldT newT g).filter fun c => c.tag = ChangeTag.delete).map Change.value) =
      (delRanges g).flatMap fun r => sliceSpan oldT r := by
  induction g with
  | nil => rfl
  | cons op rest ih =>
    simp only [hunkChanges, List.flatMap_cons] at ih ⊢
    rw [List.filter_append, List.map_append, ih, opChanges_del_values]
    cases op <;> simp [delRanges, List.filterMap_cons, sliceSpan]

theorem inserts_values (oldT newT : List String) (g : List DiffOp) :
    (((hunkChanges oldT newT g).filter fun c => c.tag = ChangeTag.insert).map Change.value) =
      (insRanges g).flatMap fun r => sliceSpan newT r := by
  induction g with
  | nil => rfl
  | cons op rest ih =>
    simp only [hunkChanges, List.flatMap_cons] at ih ⊢
    rw [List.filter_append, List.map_append, ih, opChanges_ins_values]
    cases op <;> simp [insRanges, List.filterMap_cons, sliceSpan]

theorem hunkOfGroup_before (oldT newT : List String) (i : Nat) (g : List DiffOp) :
    (hunkOfGroup oldT newT i g).before_lines = String.intercalate "\n"
      (((hunkChanges oldT newT g).filter fun c => c.tag = ChangeTag.delete).map Change.value) :=
  rfl

theorem hunkOfGroup_after (oldT newT : List String) (i : Nat) (g : List DiffOp) :
    (hunkOfGroup oldT newT i g).after_lines = String.intercalate "\n"
      (((hunkChanges oldT newT g).filter fun c => c.tag = ChangeTag.insert).map Change.value) :=
  rfl

theorem hunkOfGroup_old_stop (oldT newT : List String) (i : Nat) (g : List DiffOp) :
    (hunkOfGroup oldT newT i g).old_start + (hunkOfGroup oldT newT i g).old_count =
      (((g.getLast?.map DiffOp.oldStop).getD 0 : Nat) : Int) := by
  simp only [hunkOfGroup]
  ring

theorem hunkOfGroup_new_stop (oldT newT : List String) (i : Nat) (g : List DiffOp) :
    (hunkOfGroup oldT newT i g).new_start + (hunkOfGroup oldT newT i g).new_count =
      (((g.getLast?.map DiffOp.newStop).getD 0 : Nat) : Int) := by
  simp only [hunkOfGroup]
  ring

/-- Claim C1 as amended: for every pair of texts, each produced hunk stores in
`before_lines` the newline-join of the old text's lines over the delete
sub-spans of the hunk's operations — sub-spans that lie inside
`[old_start, old_start + old_count)` and inside the old text — and
symmetrically stores in `after_lines` the new text's lines over the insert
sub-spans; the hunk's span additionally counts the unchanged context lines,
which are not stored. -/
theorem hunk_lines_from_texts (old new : String) (i : Nat) (h : HunkData)
    (hh : (extract_hunks old new).get? i = some h) :
    ∃ g, (group_diff_ops 3 (diff_ops (split_lines old) (split_lines new))).get? i = some g ∧
      h.before_lines = String.intercalate "\n"
        ((delRanges g).flatMap fun r => sliceSpan (split_lines old) r) ∧
      h.after_lines = String.intercalate "\n"
        ((insRanges g).flatMap fun r => sliceSpan (split_lines new) r) ∧
      (∀ r ∈ delRanges g, h.old_start ≤ (r.1 : Int) ∧
        ((r.1 + r.2 : Nat) : Int) ≤ h.old_start + h.old_count ∧
        r.1 + r.2 ≤ (split_lines old).length) ∧
      (∀ r ∈ insRanges g, h.new_start ≤ (r.1 : Int) ∧
        ((r.1 + r.2 : Nat) : Int) ≤ h.new_start + h.new_count ∧
        r.1 + r.2 ≤ (split_lines new).length) := by
  simp only [extract_hunks, List.get?_map] at hh
  rw [show (group_diff_ops 3 (diff_ops (split_lines old) (split_lines new))).enum =
    List.enumFrom 0 (group_diff_ops 3 (diff_ops (split_lines old) (split_lines new))) from rfl,
    enumFrom_get? _ 0 i] at hh
  cases hg : (group_diff_ops 3 (diff_ops (split_lines old) (split_lines new))).get? i with
  | none => rw [hg] at hh; simp at hh
  | some g =>
    rw [hg] at hh
    have hhg : hunkOfGroup (split_lines old) (split_lines new) (0 + i) g = h := by
      simpa using hh
    subst hhg
    refine ⟨g, rfl, ?_, ?_, ?_, ?_⟩
    · rw [hunkOfGroup_before, deletes_values]
    · rw [hunkOfGroup_after, inserts_values]
    · have hmem_g : g ∈ group_diff_ops 3 (diff_ops (split_lines old) (split_lines new)) :=
        List.get?_mem hg
      obtain ⟨hgne, c, d, hcN, hdM, hch⟩ :=
        (group_diff_ops_good (split_lines old) (split_lines new)).1 g hmem_g
      have hlast := chainedFromTo_getLast g _ _ c d hch hgne
      intro r hr
      obtain ⟨op, hop, hmatch⟩ := List.mem_filterMap.mp hr
      have hb := chainedFromTo_mem g _ _ c d hch op hop
      rw [hunkOfGroup_old_stop, hlast.1, hunkOfGroup_old_start]
      cases op with
      | equal a b l => simp at hmatch
      | insert a b m => simp at hmatch
      | delete a l b =>
        obtain rfl : (a, l) = r := by simpa using hmatch
        simp only [DiffOp.oldStart, DiffOp.oldStop] at hb
        refine ⟨by exact_mod_cast hb.1, by exact_mod_cast hb.2.1, ?_⟩
        have := hb.2.1
        omega
      | replace a l b m =>
        obtain rfl : (a, l) = r := by simpa using hmatch
        simp only [DiffOp.oldStart, DiffOp.oldStop] at hb
        refine ⟨by exact_mod_cast hb.1, by exact_mod_cast hb.2.1, ?_⟩
        have := hb.2.1
        omega
    · have hmem_g : g ∈ group_diff_ops 3 (diff_ops (split_lines old) (split_lines new)) :=
        List.get?_mem hg
      obtain ⟨hgne, c, d, hcN, hdM, hch⟩ :=
        (group_diff_ops_good (split_lines old) (split_lines new)).1 g hmem_g
      have hlast := chainedFromTo_getLast g _ _ c d hch hgne
      intro r hr
      obtain ⟨op, hop, hmatch⟩ := List.mem_filterMap.mp hr
      have hb := chainedFromTo_mem g _ _ c d hch op hop
      rw [hunkOfGroup_new_stop, hlast.2, hunkOfGroup_new_start]
      cases op with
      | equal a b l => simp at hmatch
      | delete a l b => simp at hmatch
      | insert a b m =>
        obtain rfl : (b, m) = r := by simpa using hmatch
        simp only [DiffOp.newStart, DiffOp.newStop] at hb
        refine ⟨by exact_mod_cast hb.2.2.1, by exact_mod_cast hb.2.2.2, ?_⟩
        have := hb.2.2.2
        omega
      | replace a l b m =>
        obtain rfl : (b, m) = r := by simpa using hmatch
        simp only [DiffOp.newStart, DiffOp.newStop] at hb
        refine ⟨by exact_mod_cast hb.2.2.1, by exact_mod_cast hb.2.2.2, ?_⟩
        have := hb.2.2.2
        omega

/-- Witness for `hunk_lines_from_texts` at the single hunk of the diff of
`"a\nb\nc\n"` against `"a\nx\nc\n"`. -/
theorem hunk_lines_from_texts_witness :
    ((extract_hunks "a\nb\nc\n" "a\nx\nc\n").get? 0 =
      some (⟨0, 0, 3, 0, 3, "b\n", "x\n"⟩ : HunkData)) ∧
    (∃ g, (group_diff_ops 3
        (diff_ops (split_lines "a\nb\nc\n") (split_lines "a\nx\nc\n"))).get? 0 = some g ∧
      (⟨0, 0, 3, 0, 3, "b\n", "x\n"⟩ : HunkData).before_lines = String.intercalate "\n"
        ((delRanges g).flatMap fun r => sliceSpan (split_lines "a\nb\nc\n") r) ∧
      (⟨0, 0, 3, 0, 3, "b\n", "x\n"⟩ : HunkData).after_lines = String.intercalate "\n"
        ((insRanges g).flatMap fun r => sliceSpan (split_lines "a\nx\nc\n") r) ∧
      (∀ r ∈ delRanges g,
        (⟨0, 0, 3, 0, 3, "b\n", "x\n"⟩ : HunkData).old_start ≤ (r.1 : Int) ∧
        ((r.1 + r.2 : Nat) : Int) ≤ (⟨0, 0, 3, 0, 3, "b\n", "x\n"⟩ : HunkData).old_start +
          (⟨0, 0, 3, 0, 3, "b\n", "x\n"⟩ : HunkData).old_count ∧
        r.1 + r.2 ≤ (split_lines "a\nb\nc\n").length) ∧
      (∀ r ∈ insRanges g,
        (⟨0, 0, 3, 0, 3, "b\n", "x\n"⟩ : HunkData).new_start ≤ (r.1 : Int) ∧
        ((r.1 + r.2 : Nat) : Int) ≤ (⟨0, 0, 3, 0, 3, "b\n", "x\n"⟩ : HunkData).new_start +
          (⟨0, 0, 3, 0, 3, "b\n", "x\n"⟩ : HunkData).new_count ∧
        r.1 + r.2 ≤ (split_lines "a\nx\nc\n").length)) :=
  ⟨by decide, hunk_lines_from_texts "a\nb\nc\n" "a\nx\nc\n" 0
    (⟨0, 0, 3, 0, 3, "b\n", "x\n"⟩ : HunkData) (by decide)⟩
